import Mathlib

/-!
Verification model of the audit-log subsystem of the repository: the capped
append-only log store (`src/services/logger.ts`, class `LoggerService`) that
persists a JSON-encoded array of entries under one `localStorage` key, and the
view-side filtering/sorting over the in-memory snapshot
(`sortedAndFilteredLogs` in the audit-log component).

Modelling conventions:
* `localStorage` is a single optional string cell (the one key
  `cloudmine_audit_ledger`); `localStorage.getItem` yields `Option String`.
* `JSON.stringify` / `JSON.parse` are modelled by an executable serializer and
  recursive-descent reader over a JSON value type.  JavaScript numbers are
  modelled as integers (`Int`); numeric literals with fraction or exponent
  parts, and lone UTF-16 surrogates, are outside the model.
* Effects (`localStorage.setItem`, `localStorage.removeItem`,
  `window.dispatchEvent`, `console.error`) are recorded in an ordered trace.
* Nondeterministic inputs of a call (`Math.random().toString(36)`,
  `Date.now()`, and whether the persistence write throws, e.g. quota
  exceeded) are supplied as an explicit environment value.
-/

/-- JSON whitespace characters (space, tab, line feed, carriage return). -/
def jsonWs (c : Char) : Bool :=
  c = ' ' || c = '\t' || c = '\n' || c = '\r'

/-- Drop leading JSON whitespace. -/
def wsDrop : List Char → List Char
  | [] => []
  | c :: cs => if jsonWs c then wsDrop cs else c :: cs

/-- The decimal digit character for `n < 10`. -/
def digitChar10 (n : Nat) : Char := Char.ofNat (48 + n)

/-- Lowercase hexadecimal digit character for `n < 16`, as emitted by
`JSON.stringify` in `\u00XX` escapes. -/
def hexChar (n : Nat) : Char :=
  if n < 10 then digitChar10 n else Char.ofNat (87 + n)

/-- Decimal digit list of a natural number, most significant first. -/
def natDigits (n : Nat) : List Char :=
  if _h : n < 10 then [digitChar10 n]
  else natDigits (n / 10) ++ [digitChar10 (n % 10)]
decreasing_by exact Nat.div_lt_self (by omega) (by omega)

/-- Decimal character run of an integer, with a leading minus sign when
negative: the digits `JSON.stringify` emits for an integral number. -/
def intChars (n : Int) : List Char :=
  if n < 0 then '-' :: natDigits n.natAbs else natDigits n.natAbs

/-- Backspace control character (U+0008). -/
def bsChar : Char := Char.ofNat 8

/-- Form-feed control character (U+000C). -/
def ffChar : Char := Char.ofNat 12

/-- Opening curly brace character (U+007B). -/
def obrace : Char := Char.ofNat 123

/-- Closing curly brace character (U+007D). -/
def cbrace : Char := Char.ofNat 125

/-- The escape run `JSON.stringify` produces inside a quoted string for one
character: two-character named escapes for quote, backslash and the common
control characters, `\u00XX` for the remaining control characters, and the
character itself otherwise. -/
def escSeq (c : Char) : List Char :=
  if c = '"' then ['\\', '"']
  else if c = '\\' then ['\\', '\\']
  else if c = bsChar then ['\\', 'b']
  else if c = '\t' then ['\\', 't']
  else if c = '\n' then ['\\', 'n']
  else if c = ffChar then ['\\', 'f']
  else if c = '\r' then ['\\', 'r']
  else if c.toNat < 32 then
    ['\\', 'u', '0', '0', hexChar (c.toNat / 16), hexChar (c.toNat % 16)]
  else [c]

/-- Escape every character of a string body in order. -/
def escAll : List Char → List Char
  | [] => []
  | c :: cs => escSeq c ++ escAll cs

/-- JSON values.  Numbers are modelled as integers. -/
inductive Json where
  | null : Json
  | bool (b : Bool) : Json
  | num (n : Int) : Json
  | str (s : String) : Json
  | arr (items : List Json) : Json
  | obj (fields : List (String × Json)) : Json

/-- The quoted, escaped form of a string literal. -/
def quoteChars (s : String) : List Char := '"' :: (escAll s.data ++ ['"'])

mutual

/-- Keyword characters of the three JSON literals. -/
def nullChars : List Char := ['n', 'u', 'l', 'l']

/-- Keyword characters of the boolean literal `true`. -/
def trueChars : List Char := ['t', 'r', 'u', 'e']

/-- Keyword characters of the boolean literal `false`. -/
def falseChars : List Char := ['f', 'a', 'l', 's', 'e']

/-- Character run emitted by `JSON.stringify` for a value (no whitespace). -/
def Json.emit : Json → List Char
  | .null => nullChars
  | .num n => intChars n
  | .bool true => trueChars
  | .str s => quoteChars s
  | .bool false => falseChars
  | .arr items => '[' :: (Json.emitItems items ++ [']'])
  | .obj fields => obrace :: (Json.emitPairs fields ++ [cbrace])

/-- Comma-separated element list of an array. -/
def Json.emitItems : List Json → List Char
  | [] => []
  | e :: es => Json.emit e ++ Json.emitSep es

/-- Separator-led continuation of an array element list. -/
def Json.emitSep : List Json → List Char
  | [] => []
  | e :: es => ',' :: (Json.emit e ++ Json.emitSep es)

/-- Comma-separated member list of an object. -/
def Json.emitPairs : List (String × Json) → List Char
  | [] => []
  | kv :: fs =>
    quoteChars kv.1 ++ (':' :: (Json.emit kv.2 ++ Json.emitPairSep fs))

/-- Separator-led continuation of an object member list. -/
def Json.emitPairSep : List (String × Json) → List Char
  | [] => []
  | kv :: fs =>
    ',' :: (quoteChars kv.1 ++ (':' :: (Json.emit kv.2 ++ Json.emitPairSep fs)))

end

/-- Model of `JSON.stringify` (no indentation argument, as in the source). -/
def Json.stringify (v : Json) : String := String.mk (Json.emit v)

/-- Numeric value of a hexadecimal digit character, upper or lower case. -/
def hexNum (c : Char) : Option Nat :=
  if c.isDigit then some (c.toNat - 48)
  else if 'a' ≤ c ∧ c ≤ 'f' then some (c.toNat - 87)
  else if 'A' ≤ c ∧ c ≤ 'F' then some (c.toNat - 55)
  else none

/-- Character denoted by a two-character escape, when legal. -/
def escUndo (c : Char) : Option Char :=
  if c = '"' then some '"'
  else if c = '\\' then some '\\'
  else if c = '/' then some '/'
  else if c = 'b' then some bsChar
  else if c = 'f' then some ffChar
  else if c = 'n' then some '\n'
  else if c = 'r' then some '\r'
  else if c = 't' then some '\t'
  else none

/-- Read the body of a JSON string literal after its opening quote, returning
the decoded characters and the input following the closing quote.  Unescaped
control characters are rejected, as in `JSON.parse`. -/
def readStr : List Char → Option (List Char × List Char)
  | [] => none
  | c :: cs =>
    if c = '"' then some ([], cs)
    else if c = '\\' then
      match cs with
      | [] => none
      | e :: cs2 =>
        if e = 'u' then
          match cs2 with
          | h1 :: h2 :: h3 :: h4 :: cs3 =>
            match hexNum h1, hexNum h2, hexNum h3, hexNum h4 with
            | some a, some b, some c2, some d =>
              let n := ((a * 16 + b) * 16 + c2) * 16 + d
              if n < 55296 then
                match readStr cs3 with
                | some (out, rest) => some (Char.ofNat n :: out, rest)
                | none => none
              else none
            | _, _, _, _ => none
          | _ => none
        else
          match escUndo e with
          | some u =>
            match readStr cs2 with
            | some (out, rest) => some (u :: out, rest)
            | none => none
          | none => none
    else if c.toNat < 32 then none
    else
      match readStr cs with
      | some (out, rest) => some (c :: out, rest)
      | none => none

/-- Left-to-right accumulation of a decimal digit run; stops at the first
character that is not a digit. -/
def readNatAcc (acc : Nat) : List Char → Nat × List Char
  | [] => (acc, [])
  | c :: cs =>
    if c.isDigit then readNatAcc (acc * 10 + (c.toNat - 48)) cs
    else (acc, c :: cs)

mutual

/-- Read one JSON value (fuel-bounded recursive descent, leading whitespace
allowed), returning the value and the unconsumed input. -/
def readVal : Nat → List Char → Option (Json × List Char)
  | 0, _ => none
  | f + 1, input =>
    match wsDrop input with
    | [] => none
    | c :: cs =>
      if c = 'n' then
        match cs with
        | 'u' :: 'l' :: 'l' :: r => some (.null, r)
        | _ => none
      else if c = 't' then
        match cs with
        | 'r' :: 'u' :: 'e' :: r => some (.bool true, r)
        | _ => none
      else if c = 'f' then
        match cs with
        | 'a' :: 'l' :: 's' :: 'e' :: r => some (.bool false, r)
        | _ => none
      else if c = '"' then
        match readStr cs with
        | some (body, r) => some (.str (String.mk body), r)
        | none => none
      else if c = '[' then
        match wsDrop cs with
        | ']' :: r => some (.arr [], r)
        | cs2 =>
          match readItems f cs2 with
          | some (vs, r1) =>
            match r1 with
            | ']' :: r2 => some (.arr vs, r2)
            | _ => none
          | none => none
      else if c = obrace then
        match wsDrop cs with
        | d :: ds =>
          if d = cbrace then some (.obj [], ds)
          else
            match readPairs f (d :: ds) with
            | some (ps, r1) =>
              match r1 with
              | e :: r2 => if e = cbrace then some (.obj ps, r2) else none
              | _ => none
            | none => none
        | [] => none
      else if c = '-' then
        match cs with
        | d :: _ =>
          if d.isDigit then
            let (m, r) := readNatAcc 0 cs
            some (.num (-(m : Int)), r)
          else none
        | [] => none
      else if c.isDigit then
        let (m, r) := readNatAcc 0 (c :: cs)
        some (.num (m : Int), r)
      else none

/-- Read one or more comma-separated JSON values. -/
def readItems : Nat → List Char → Option (List Json × List Char)
  | 0, _ => none
  | f + 1, input =>
    match readVal f input with
    | some (v, r1) =>
      match wsDrop r1 with
      | ',' :: r2 =>
        match readItems f r2 with
        | some (vs, r3) => some (v :: vs, r3)
        | none => none
      | r2 => some ([v], r2)
    | none => none

/-- Read one or more comma-separated `"key": value` object members. -/
def readPairs : Nat → List Char → Option (List (String × Json) × List Char)
  | 0, _ => none
  | f + 1, input =>
    match wsDrop input with
    | '"' :: r0 =>
      match readStr r0 with
      | some (key, r1) =>
        match wsDrop r1 with
        | ':' :: r2 =>
          match readVal f r2 with
          | some (v, r3) =>
            match wsDrop r3 with
            | ',' :: r4 =>
              match readPairs f r4 with
              | some (ps, r5) => some ((String.mk key, v) :: ps, r5)
              | none => none
            | r4 => some ([(String.mk key, v)], r4)
          | none => none
        | _ => none
      | none => none
    | _ => none

end

/-- Model of `JSON.parse`: `none` stands for the `SyntaxError` the browser
function throws on malformed input. -/
def Json.parse (s : String) : Option Json :=
  match readVal (s.data.length + 1) s.data with
  | some (v, r) => if wsDrop r = [] then some v else none
  | none => none

/-- Rebuilding a string from its character data is the identity. -/
theorem String.mk_data (s : String) : String.mk s.data = s := rfl

/-- Tails that cannot extend a decimal digit run: empty input or a non-digit
head.  Every separator and closer of the JSON grammar qualifies. -/
def numOk : List Char → Bool
  | [] => true
  | c :: _ => !c.isDigit

/-- Tails at which a comma-separated sequence must stop: empty input or a head
that is no digit, no whitespace and no comma. -/
def sepOk : List Char → Bool
  | [] => true
  | c :: _ => !c.isDigit && !jsonWs c && !(c == ',')

theorem numOk_of_sepOk {l : List Char} (h : sepOk l = true) : numOk l = true := by
  cases l with
  | nil => rfl
  | cons c cs => simp only [sepOk, Bool.and_eq_true] at h; simpa [numOk] using h.1.1

theorem digitChar10_isDigit {d : Nat} (h : d < 10) : (digitChar10 d).isDigit = true := by
  interval_cases d <;> decide

theorem digitChar10_toNat {d : Nat} (h : d < 10) : (digitChar10 d).toNat = 48 + d := by
  interval_cases d <;> decide

theorem natDigits_ne_nil (n : Nat) : natDigits n ≠ [] := by
  rw [natDigits]; split <;> simp

theorem natDigits_digits (n : Nat) : ∀ c ∈ natDigits n, c.isDigit = true := by
  induction n using Nat.strongRecOn with
  | _ n ih =>
    rw [natDigits]
    split
    · intro c hc
      rw [List.mem_singleton] at hc
      exact hc ▸ digitChar10_isDigit (by omega)
    · intro c hc
      rcases List.mem_append.mp hc with hl | hr
      · exact ih (n / 10) (Nat.div_lt_self (by omega) (by omega)) c hl
      · rw [List.mem_singleton] at hr
        exact hr ▸ digitChar10_isDigit (Nat.mod_lt _ (by omega))

theorem natDigits_head (n : Nat) :
    ∃ c t, natDigits n = c :: t ∧ c.isDigit = true := by
  cases h : natDigits n with
  | nil => exact absurd h (natDigits_ne_nil n)
  | cons c t =>
    exact ⟨c, t, rfl, natDigits_digits n c (h ▸ List.mem_cons_self c t)⟩

theorem natDigits_foldl (n : Nat) :
    List.foldl (fun a c => a * 10 + (c.toNat - 48)) 0 (natDigits n) = n := by
  induction n using Nat.strongRecOn with
  | _ n ih =>
    rw [natDigits]
    split
    · next h =>
      simp [digitChar10_toNat h]
    · next h =>
      rw [List.foldl_append, ih (n / 10) (Nat.div_lt_self (by omega) (by omega))]
      simp [digitChar10_toNat (Nat.mod_lt n (by omega) : n % 10 < 10)]
      omega

theorem readNatAcc_run :
    ∀ (ds : List Char), (∀ c ∈ ds, c.isDigit = true) →
    ∀ (acc : Nat) (rest : List Char), numOk rest = true →
    readNatAcc acc (ds ++ rest)
      = (List.foldl (fun a c => a * 10 + (c.toNat - 48)) acc ds, rest) := by
  intro ds
  induction ds with
  | nil =>
    intro _ acc rest hrest
    cases rest with
    | nil => rfl
    | cons c cs =>
      simp only [numOk, Bool.not_eq_true'] at hrest
      simp [readNatAcc, hrest]
  | cons d ds ih =>
    intro hds acc rest hrest
    have hd : d.isDigit = true := hds d (List.mem_cons_self d ds)
    simp only [List.cons_append, readNatAcc, hd, if_true, List.append_eq]
    rw [ih (fun c hc => hds c (List.mem_cons_of_mem d hc)) _ rest hrest]
    rfl

theorem readNat_natDigits (n : Nat) (rest : List Char) (h : numOk rest = true) :
    readNatAcc 0 (natDigits n ++ rest) = (n, rest) := by
  rw [readNatAcc_run (natDigits n) (natDigits_digits n) 0 rest h, natDigits_foldl]

/-- A decimal digit is none of the characters the JSON value dispatcher or the
separator logic treats specially. -/
theorem digit_free {c : Char} (h : c.isDigit = true) :
    c ≠ 'n' ∧ c ≠ '-' ∧ c ≠ 't' ∧ c ≠ '"' ∧ c ≠ 'f'
      ∧ c ≠ '[' ∧ c ≠ obrace ∧ jsonWs c = false
      ∧ c ≠ ']' ∧ c ≠ cbrace ∧ c ≠ ',' ∧ c ≠ ':' := by
  have hws : jsonWs c = false := by
    cases hj : jsonWs c with
    | false => rfl
    | true =>
      exfalso
      simp only [jsonWs, Bool.or_eq_true, decide_eq_true_eq] at hj
      rcases hj with ((rfl | rfl) | rfl) | rfl <;> exact absurd h (by decide)
  refine ⟨?_, ?_, ?_, ?_, ?_, ?_, ?_, hws, ?_, ?_, ?_, ?_⟩ <;>
    first
      | (rintro rfl; exact absurd h (by decide))

theorem hexNum_hexChar {m : Nat} (h : m < 16) : hexNum (hexChar m) = some m := by
  interval_cases m <;> decide

/-- Reading one escape run prepends exactly the escaped character. -/
theorem readStr_escSeq (c : Char) (X : List Char) :
    readStr (escSeq c ++ X)
      = match readStr X with
        | some (out, rest) => some (c :: out, rest)
        | none => none := by
  simp only [escSeq]
  split_ifs with h1 h2 h3 h4 h5 h6 h7 h8
  · subst h1
    rcases hX : readStr X with _ | ⟨out, rest⟩ <;>
      (rw [readStr.eq_def]; simp +decide [escUndo, hX])
  · subst h2
    rcases hX : readStr X with _ | ⟨out, rest⟩ <;>
      (rw [readStr.eq_def]; simp +decide [escUndo, hX])
  · subst h3
    rcases hX : readStr X with _ | ⟨out, rest⟩ <;>
      (rw [readStr.eq_def]; simp +decide [escUndo, hX])
  · subst h4
    rcases hX : readStr X with _ | ⟨out, rest⟩ <;>
      (rw [readStr.eq_def]; simp +decide [escUndo, hX])
  · subst h5
    rcases hX : readStr X with _ | ⟨out, rest⟩ <;>
      (rw [readStr.eq_def]; simp +decide [escUndo, hX])
  · subst h6
    rcases hX : readStr X with _ | ⟨out, rest⟩ <;>
      (rw [readStr.eq_def]; simp +decide [escUndo, hX])
  · subst h7
    rcases hX : readStr X with _ | ⟨out, rest⟩ <;>
      (rw [readStr.eq_def]; simp +decide [escUndo, hX])
  · have hdiv : c.toNat / 16 < 16 := by omega
    have hmod : c.toNat % 16 < 16 := Nat.mod_lt _ (by omega)
    have hsum : c.toNat / 16 * 16 + c.toNat % 16 = c.toNat := by omega
    have hlt : c.toNat < 55296 := by omega
    rcases hX : readStr X with _ | ⟨out, rest⟩ <;>
      (rw [readStr.eq_def]
       simp +decide [hexNum_hexChar hdiv, hexNum_hexChar hmod,
                     (by decide : hexNum '0' = some 0),
                     hsum, hlt, hX, Char.ofNat_toNat])
  · rcases hX : readStr X with _ | ⟨out, rest⟩ <;>
      (rw [readStr.eq_def]; simp [h1, h2, (by omega : ¬c.toNat < 32), hX]) <;> omega

/-- The string-body codec round-trip: reading an escaped body up to its
closing quote recovers the original characters and tail. -/
theorem readStr_escAll (cs : List Char) :
    ∀ rest : List Char, readStr (escAll cs ++ '"' :: rest) = some (cs, rest) := by
  induction cs with
  | nil =>
    intro rest
    rw [escAll, List.nil_append, readStr.eq_def]
    simp
  | cons c cs ih =>
    intro rest
    rw [escAll, List.append_assoc, readStr_escSeq, ih rest]

theorem wsDrop_not_ws {c : Char} (cs : List Char) (h : jsonWs c = false) :
    wsDrop (c :: cs) = c :: cs := by
  simp [wsDrop, h]

theorem emitSep_cons (e : Json) (es : List Json) :
    Json.emitSep (e :: es) = ',' :: Json.emitItems (e :: es) := rfl

theorem emitPairSep_cons (p : String × Json) (fs : List (String × Json)) :
    Json.emitPairSep (p :: fs) = ',' :: Json.emitPairs (p :: fs) := by
  cases p; rfl

/-- Every emitted value starts with a character that is no whitespace, no
closer and no separator of the surrounding grammar. -/
theorem emit_head (v : Json) :
    ∃ c t, Json.emit v = c :: t
      ∧ (jsonWs c = false ∧ c ≠ ']' ∧ c ≠ cbrace ∧ c ≠ ',') := by
  cases v with
  | null => exact ⟨'n', _, rfl, by decide⟩
  | bool b =>
    cases b
    · exact ⟨'f', _, rfl, by decide⟩
    · exact ⟨'t', _, rfl, by decide⟩
  | num n =>
    by_cases hn : n < 0
    · exact ⟨'-', natDigits n.natAbs, by simp [Json.emit, intChars, hn], by decide⟩
    · obtain ⟨d, t, hd, hdig⟩ := natDigits_head n.natAbs
      obtain ⟨_, _, _, _, _, _, _, hws, hrb, hcb, hcomma, _⟩ := digit_free hdig
      exact ⟨d, t, by simp [Json.emit, intChars, hn, hd], hws, hrb, hcb, hcomma⟩
  | str s => exact ⟨'"', _, rfl, by decide⟩
  | arr items => exact ⟨'[', _, rfl, by decide⟩
  | obj fields => exact ⟨obrace, _, rfl, by decide⟩

theorem emit_length_pos (v : Json) : 1 ≤ (Json.emit v).length := by
  obtain ⟨c, t, hct, -⟩ := emit_head v
  simp [hct]

theorem wsDrop_emit (v : Json) (x : List Char) :
    wsDrop (Json.emit v ++ x) = Json.emit v ++ x := by
  obtain ⟨c, t, hct, hws, -⟩ := emit_head v
  rw [hct, List.cons_append, wsDrop_not_ws _ hws]

theorem quoteChars_length (s : String) :
    (quoteChars s).length = (escAll s.data).length + 2 := by
  simp [quoteChars]


/-- One-step unfolding of `readVal` at successor fuel on an array opener. -/
theorem readVal_arr_step (f : Nat) (X : List Char) :
    readVal (f + 1) ('[' :: X)
      = (match wsDrop X with
         | ']' :: r => some (.arr [], r)
         | X2 =>
           match readItems f X2 with
           | some (vs, r1) =>
             match r1 with
             | ']' :: r2 => some (.arr vs, r2)
             | _ => none
           | none => none) := by
  rw [readVal.eq_def]
  simp +decide [wsDrop]

/-- One-step unfolding of `readVal` at successor fuel on an object opener. -/
theorem readVal_obj_step (f : Nat) (X : List Char) :
    readVal (f + 1) (obrace :: X)
      = (match wsDrop X with
         | d :: ds =>
           if d = cbrace then some (.obj [], ds)
           else
             match readPairs f (d :: ds) with
             | some (ps, r1) =>
               match r1 with
               | e :: r2 => if e = cbrace then some (.obj ps, r2) else none
               | _ => none
             | none => none
         | [] => none) := by
  rw [readVal.eq_def]
  simp +decide [wsDrop]

/-- One-step unfolding of `readItems` at successor fuel. -/
theorem readItems_step (f : Nat) (input : List Char) :
    readItems (f + 1) input
      = (match readVal f input with
         | some (v, r1) =>
           match wsDrop r1 with
           | ',' :: r2 =>
             match readItems f r2 with
             | some (vs, r3) => some (v :: vs, r3)
             | none => none
           | r2 => some ([v], r2)
         | none => none) := by
  rw [readItems.eq_def]

/-- One-step unfolding of `readPairs` at successor fuel. -/
theorem readPairs_step (f : Nat) (input : List Char) :
    readPairs (f + 1) input
      = (match wsDrop input with
         | '"' :: r0 =>
           match readStr r0 with
           | some (key, r1) =>
             match wsDrop r1 with
             | ':' :: r2 =>
               match readVal f r2 with
               | some (v, r3) =>
                 match wsDrop r3 with
                 | ',' :: r4 =>
                   match readPairs f r4 with
                   | some (ps, r5) => some ((String.mk key, v) :: ps, r5)
                   | none => none
                 | r4 => some ([(String.mk key, v)], r4)
               | none => none
             | _ => none
           | none => none
         | _ => none) := by
  rw [readPairs.eq_def]


/-- Unfolding of `readItems` after a successful element read: it reduces to the separator
dispatch on the remaining input. -/
theorem readItems_found (f : Nat) (input : List Char) (v : Json) (r1 : List Char)
    (h : readVal f input = some (v, r1)) :
    readItems (f + 1) input
      = match wsDrop r1 with
        | ',' :: r2 =>
          match readItems f r2 with
          | some (vs, r3) => some (v :: vs, r3)
          | none => none
        | r2 => some ([v], r2) := by
  rw [readItems_step, h]

/-- Unfolding of `readPairs` on an emitted member: it reduces to the separator dispatch on the
remaining input. -/
theorem readPairs_found (f : Nat) (k : String) (v : Json) (R : List Char)
    (hv : readVal f (Json.emit v ++ R) = some (v, R)) :
    readPairs (f + 1) ('"' :: (escAll k.data ++ ('"' :: (':' :: (Json.emit v ++ R)))))
      = match wsDrop R with
        | ',' :: r4 =>
          match readPairs f r4 with
          | some (ps, r5) => some ((k, v) :: ps, r5)
          | none => none
        | r4 => some ([(k, v)], r4) := by
  rw [readPairs_step]
  rw [wsDrop_not_ws _ (by decide)]
  simp only [readStr_escAll, String.mk_data]
  rw [wsDrop_not_ws _ (by decide)]
  simp only [hv]

theorem sizeOf_list_pos {α : Type} [SizeOf α] (l : List α) : 0 < sizeOf l := by
  cases l with
  | nil => simp
  | cons a t => simp +arith

mutual

/-- Reading an emitted value recovers it, for any fuel at least the emitted
length and any tail that cannot extend a number. -/
theorem rt_val : ∀ (v : Json) (f : Nat) (rest : List Char),
    (Json.emit v).length ≤ f → numOk rest = true →
    readVal f (Json.emit v ++ rest) = some (v, rest)
  | .null, f, rest, hf, _ => by
    cases f with
    | zero => simp [Json.emit, nullChars] at hf
    | succ f =>
      rw [readVal.eq_def]
      simp +decide [Json.emit, nullChars, wsDrop]
  | .bool true, f, rest, hf, _ => by
    cases f with
    | zero => simp [Json.emit, trueChars] at hf
    | succ f =>
      rw [readVal.eq_def]
      simp +decide [Json.emit, trueChars, wsDrop]
  | .bool false, f, rest, hf, _ => by
    cases f with
    | zero => simp [Json.emit, falseChars] at hf
    | succ f =>
      rw [readVal.eq_def]
      simp +decide [Json.emit, falseChars, wsDrop]
  | .num n, f, rest, hf, hrest => by
    cases f with
    | zero =>
      have := emit_length_pos (.num n)
      omega
    | succ f =>
      rw [readVal.eq_def]
      by_cases hn : n < 0
      · obtain ⟨d, t, hd, hdig⟩ := natDigits_head n.natAbs
        have hread : readNatAcc 0 (natDigits n.natAbs ++ rest) = (n.natAbs, rest) :=
          readNat_natDigits _ _ hrest
        simp only [Json.emit, intChars, if_pos hn, List.cons_append]
        rw [wsDrop_not_ws _ (by decide)]
        rw [hd, List.cons_append]
        simp +decide [hdig, ← List.cons_append, ← hd, hread]
        rw [abs_of_neg hn, neg_neg]
      · obtain ⟨d, t, hd, hdig⟩ := natDigits_head n.natAbs
        obtain ⟨h1, h2, h3, h4, h5, h6, h7, hws, _, _, _, _⟩ := digit_free hdig
        have hread : readNatAcc 0 (natDigits n.natAbs ++ rest) = (n.natAbs, rest) :=
          readNat_natDigits _ _ hrest
        have hpos : ((n.natAbs : Nat) : Int) = n := by omega
        simp only [Json.emit, intChars, if_neg hn]
        rw [hd, List.cons_append, wsDrop_not_ws _ hws]
        simp only [if_neg h1, if_neg h2, if_neg h3, if_neg h4, if_neg h5, if_neg h6,
                   if_neg h7, hdig, if_true]
        rw [← List.cons_append, ← hd, hread, hpos]
  | .str s, f, rest, hf, _ => by
    cases f with
    | zero =>
      have := emit_length_pos (.str s)
      omega
    | succ f =>
      rw [readVal.eq_def]
      simp only [Json.emit, quoteChars, List.cons_append, List.append_assoc,
                 List.nil_append]
      rw [wsDrop_not_ws _ (by decide)]
      simp +decide [readStr_escAll, String.mk_data]
  | .arr [], f, rest, hf, _ => by
    cases f with
    | zero => simp [Json.emit, Json.emitItems] at hf
    | succ f =>
      rw [readVal.eq_def]
      simp +decide [Json.emit, Json.emitItems, wsDrop]
  | .arr (e :: es), f, rest, hf, hrest => by
    cases f with
    | zero =>
      have := emit_length_pos (.arr (e :: es))
      omega
    | succ f =>
      obtain ⟨c0, t0, hc0, hws0, hrb0, hcb0, hcm0⟩ := emit_head e
      have hemit : (Json.emit (Json.arr (e :: es))).length
          = (Json.emitItems (e :: es)).length + 2 := by
        simp [Json.emit]
      have hkey := rt_items e es f (']' :: rest) (by omega) (by simp +decide [sepOk])
      have hkey2 : readItems f (Json.emit e ++ (Json.emitSep es ++ ']' :: rest))
          = some (e :: es, ']' :: rest) := by
        rw [show Json.emit e ++ (Json.emitSep es ++ ']' :: rest)
              = Json.emitItems (e :: es) ++ ']' :: rest by simp [Json.emitItems]]
        exact hkey
      rw [show Json.emit (Json.arr (e :: es)) ++ rest
            = '[' :: (Json.emit e ++ (Json.emitSep es ++ ']' :: rest)) by
            simp [Json.emit, Json.emitItems]]
      rw [readVal_arr_step, wsDrop_emit, hc0, List.cons_append]
      split
      · next r heq =>
        simp only [List.cons.injEq] at heq
        exact absurd heq.1 hrb0
      · rw [← List.cons_append, ← hc0]
        simp only [hkey2]
  | .obj [], f, rest, hf, _ => by
    cases f with
    | zero => simp [Json.emit, Json.emitPairs] at hf
    | succ f =>
      rw [readVal.eq_def]
      simp +decide [Json.emit, Json.emitPairs, wsDrop]
  | .obj ((k, v) :: fs), f, rest, hf, hrest => by
    cases f with
    | zero =>
      have := emit_length_pos (.obj ((k, v) :: fs))
      omega
    | succ f =>
      have hemit : (Json.emit (Json.obj ((k, v) :: fs))).length
          = (Json.emitPairs ((k, v) :: fs)).length + 2 := by
        simp [Json.emit]
      have hkey := rt_pairs (k, v) fs f (cbrace :: rest) (by omega)
        (by simp +decide [sepOk])
      have hkey2 : readPairs f ('"' :: (escAll k.data ++ ('"' :: (':' :: (Json.emit v
          ++ (Json.emitPairSep fs ++ cbrace :: rest))))))
          = some ((k, v) :: fs, cbrace :: rest) := by
        rw [show ('"' :: (escAll k.data ++ ('"' :: (':' :: (Json.emit v
              ++ (Json.emitPairSep fs ++ cbrace :: rest))))))
              = Json.emitPairs ((k, v) :: fs) ++ cbrace :: rest by
              simp [Json.emitPairs, quoteChars]]
        exact hkey
      rw [show Json.emit (Json.obj ((k, v) :: fs)) ++ rest
            = obrace :: ('"' :: (escAll k.data ++ ('"' :: (':' :: (Json.emit v
                ++ (Json.emitPairSep fs ++ cbrace :: rest)))))) by
            simp [Json.emit, Json.emitPairs, quoteChars]]
      rw [readVal_obj_step]
      rw [wsDrop_not_ws _ (by decide)]
      simp +decide [hkey2]
  termination_by v _ _ _ _ => sizeOf v

/-- Reading an emitted nonempty element list recovers it, stopping at the
first tail character that closes the surrounding array. -/
theorem rt_items : ∀ (e : Json) (es : List Json) (f : Nat) (rest : List Char),
    (Json.emitItems (e :: es)).length < f → sepOk rest = true →
    readItems f (Json.emitItems (e :: es) ++ rest) = some (e :: es, rest)
  | e, [], f, rest, hf, hrest => by
    cases f with
    | zero => omega
    | succ f =>
      have hlen1 : (Json.emitItems (e :: ([] : List Json))).length
          = (Json.emit e).length := by
        simp [Json.emitItems, Json.emitSep]
      have hv := rt_val e f rest (by omega) (numOk_of_sepOk hrest)
      rw [show Json.emitItems (e :: ([] : List Json)) ++ rest
            = Json.emit e ++ rest by simp [Json.emitItems, Json.emitSep]]
      rw [readItems_found f _ e _ hv]
      cases rest with
      | nil => simp [wsDrop]
      | cons c cs =>
        simp only [sepOk, Bool.and_eq_true, Bool.not_eq_true',
                   beq_eq_false_iff_ne] at hrest
        rw [wsDrop_not_ws _ hrest.1.2]
        split
        · next r2 heq =>
          simp only [List.cons.injEq] at heq
          exact absurd heq.1 hrest.2
        · rfl
  | e, x :: xs, f, rest, hf, hrest => by
    cases f with
    | zero => omega
    | succ f =>
      have hlen1 : (Json.emitItems (e :: x :: xs)).length
          = (Json.emit e).length + (Json.emitSep (x :: xs)).length := by
        simp [Json.emitItems]
      have hv := rt_val e f (Json.emitSep (x :: xs) ++ rest)
        (by omega) (by simp +decide [emitSep_cons, numOk])
      rw [show Json.emitItems (e :: x :: xs) ++ rest
            = Json.emit e ++ (Json.emitSep (x :: xs) ++ rest) by
            simp [Json.emitItems]]
      rw [readItems_found f _ e _ hv]
      have hlen2 : (Json.emitSep (x :: xs)).length
          = (Json.emitItems (x :: xs)).length + 1 := by
        rw [emitSep_cons]
        simp
      have hepos := emit_length_pos e
      have hx := rt_items x xs f rest (by omega) hrest
      rw [emitSep_cons, List.cons_append, wsDrop_not_ws _ (by decide)]
      simp only [hx]
  termination_by e es _ _ _ _ => sizeOf e + sizeOf es

/-- Reading an emitted nonempty member list recovers it, stopping at the
first tail character that closes the surrounding object. -/
theorem rt_pairs : ∀ (p : String × Json) (fs : List (String × Json)) (f : Nat)
    (rest : List Char),
    (Json.emitPairs (p :: fs)).length < f → sepOk rest = true →
    readPairs f (Json.emitPairs (p :: fs) ++ rest) = some (p :: fs, rest)
  | (k, v), [], f, rest, hf, hrest => by
    cases f with
    | zero => omega
    | succ f =>
      have hqlen := quoteChars_length k
      have hplen : (Json.emitPairs ((k, v) :: ([] : List (String × Json)))).length
          = (quoteChars k).length + 1 + (Json.emit v).length := by
        simp [Json.emitPairs, Json.emitPairSep]
        omega
      have hv := rt_val v f rest (by omega) (numOk_of_sepOk hrest)
      have hv2 : readVal f (Json.emit v ++ rest) = some (v, rest) := hv
      rw [show Json.emitPairs ((k, v) :: ([] : List (String × Json))) ++ rest
            = '"' :: (escAll k.data ++ ('"' :: (':' :: (Json.emit v ++ rest)))) by
            simp [Json.emitPairs, Json.emitPairSep, quoteChars]]
      rw [readPairs_found f k v rest hv2]
      cases rest with
      | nil => simp [wsDrop]
      | cons c cs =>
        simp only [sepOk, Bool.and_eq_true, Bool.not_eq_true',
                   beq_eq_false_iff_ne] at hrest
        rw [wsDrop_not_ws _ hrest.1.2]
        split
        · next r4 heq =>
          simp only [List.cons.injEq] at heq
          exact absurd heq.1 hrest.2
        · rfl
  | (k, v), q :: qs, f, rest, hf, hrest => by
    cases f with
    | zero => omega
    | succ f =>
      have hqlen := quoteChars_length k
      have hplen : (Json.emitPairs ((k, v) :: q :: qs)).length
          = (quoteChars k).length + 1 + ((Json.emit v).length
            + (Json.emitPairSep (q :: qs)).length) := by
        simp [Json.emitPairs]
        omega
      have hv := rt_val v f (Json.emitPairSep (q :: qs) ++ rest)
        (by omega) (by simp +decide [emitPairSep_cons, numOk])
      rw [show Json.emitPairs ((k, v) :: q :: qs) ++ rest
            = '"' :: (escAll k.data ++ ('"' :: (':' :: (Json.emit v
                ++ (Json.emitPairSep (q :: qs) ++ rest))))) by
            simp [Json.emitPairs, quoteChars]]
      rw [readPairs_found f k v _ hv]
      have hlen2 : (Json.emitPairSep (q :: qs)).length
          = (Json.emitPairs (q :: qs)).length + 1 := by
        rw [emitPairSep_cons]
        simp
      have hq := rt_pairs q qs f rest (by omega) hrest
      rw [emitPairSep_cons, List.cons_append, wsDrop_not_ws _ (by decide)]
      simp only [hq]
  termination_by p fs _ _ _ _ => sizeOf p.2 + sizeOf fs
  decreasing_by
  all_goals simp_wf
  all_goals
    (obtain ⟨a, b⟩ := q
     simp
     omega)

end

/-- The JSON codec round-trip: parsing a stringified value yields the value. -/
theorem Json.parse_stringify (v : Json) : Json.parse (Json.stringify v) = some v := by
  have hmain := rt_val v ((Json.emit v).length + 1) [] (by omega) rfl
  rw [List.append_nil] at hmain
  rw [Json.parse, Json.stringify]
  simp [hmain, wsDrop]

/-- The log category enumeration (`LogCategory` in `src/types`); its runtime
values are the strings returned by `LogCategory.str`. -/
inductive LogCategory where
  | SYSTEM | FINANCIAL | SECURITY | OPERATION | AI | MARKETPLACE
deriving DecidableEq

/-- The string value of a `LogCategory` enum member. -/
def LogCategory.str : LogCategory → String
  | .SYSTEM => "SYSTEM"
  | .FINANCIAL => "FINANCIAL"
  | .SECURITY => "SECURITY"
  | .OPERATION => "OPERATION"
  | .AI => "AI"
  | .MARKETPLACE => "MARKETPLACE"

/-- Enum member denoted by a string, if any. -/
def LogCategory.ofStr (s : String) : Option LogCategory :=
  if s = "SYSTEM" then some .SYSTEM
  else if s = "FINANCIAL" then some .FINANCIAL
  else if s = "SECURITY" then some .SECURITY
  else if s = "OPERATION" then some .OPERATION
  else if s = "AI" then some .AI
  else if s = "MARKETPLACE" then some .MARKETPLACE
  else none

theorem LogCategory.ofStr_str (c : LogCategory) : LogCategory.ofStr c.str = some c := by
  cases c <;> rfl

/-- The `AuditLog` record (`src/types`): `metadata` is an optional
`Record<string, any>`, modelled as an optional JSON object body. -/
structure AuditLog where
  id : String
  timestamp : Int
  category : LogCategory
  action : String
  metadata : Option (List (String × Json))

/-- The JSON object `JSON.stringify` sees for one entry.  A field whose value
is `undefined` (an absent `metadata`) is omitted from the output, per
`JSON.stringify` semantics. -/
def encodeLog (lg : AuditLog) : Json :=
  .obj ([("id", .str lg.id), ("timestamp", .num lg.timestamp),
         ("category", .str lg.category.str), ("action", .str lg.action)]
        ++ (match lg.metadata with
            | some m => [("metadata", .obj m)]
            | none => []))

/-- The JSON value persisted for a list of entries. -/
def encodeLogs (logs : List AuditLog) : Json := .arr (logs.map encodeLog)

/-- First value bound to a key in a JSON object body. -/
def jLookup (fields : List (String × Json)) (key : String) : Option Json :=
  match fields with
  | [] => none
  | (k, v) :: fs => if k = key then some v else jLookup fs key

/-- Reads a parsed JSON value back as an `AuditLog` record.  The TypeScript
code performs no such validation — the parsed object is used as the record
directly — so this is exactly the identification of a well-formed entry
object with its record. -/
def decodeLog (j : Json) : Option AuditLog :=
  match j with
  | .obj fields =>
    match jLookup fields "id", jLookup fields "timestamp",
          jLookup fields "category", jLookup fields "action" with
    | some (.str i), some (.num ts), some (.str c), some (.str a) =>
      match LogCategory.ofStr c with
      | some cat =>
        match jLookup fields "metadata" with
        | some (.obj m) => some ⟨i, ts, cat, a, some m⟩
        | some _ => none
        | none => some ⟨i, ts, cat, a, none⟩
      | none => none
    | _, _, _, _ => none
  | _ => none

/-- Reads a parsed JSON value back as an entry list. -/
def decodeLogs (j : Json) : Option (List AuditLog) :=
  match j with
  | .arr items => items.mapM decodeLog
  | _ => none

theorem decodeLog_encodeLog (lg : AuditLog) : decodeLog (encodeLog lg) = some lg := by
  obtain ⟨i, ts, cat, act, md⟩ := lg
  cases md with
  | none =>
    simp +decide [encodeLog, decodeLog, jLookup, LogCategory.ofStr_str]
  | some m =>
    simp +decide [encodeLog, decodeLog, jLookup, LogCategory.ofStr_str]

theorem decodeLogs_encodeLogs (logs : List AuditLog) :
    decodeLogs (encodeLogs logs) = some logs := by
  induction logs with
  | nil => rfl
  | cons lg rest ih =>
    simp only [decodeLogs, encodeLogs, List.map_cons, List.mapM_cons,
               decodeLog_encodeLog] at ih ⊢
    simp only [Option.bind_eq_bind, Option.some_bind] at ih ⊢
    rw [show (rest.map encodeLog).mapM decodeLog = some rest from ih]
    rfl

/-- Per-call nondeterministic inputs of the browser environment:
`Math.random().toString(36)` (the full returned string, e.g. `0.k2j4h...`),
`Date.now()`, and whether `localStorage.setItem` throws on this call
(e.g. quota exceeded). -/
structure Env where
  rnd : String
  now : Int
  setItemFails : Bool

/-- Externally observable effects of one `LoggerService` call, in order. -/
inductive Effect where
  | setItem (value : String)
  | removeItem
  | auditLogUpdated (detail : AuditLog)
  | consoleError (msg : String)

/-- Id generation at write time:
`LOG-` + `Math.random().toString(36).substr(2, 9).toUpperCase()`. -/
def genId (rnd : String) : String :=
  String.mk ("LOG-".data ++ ((rnd.data.drop 2).take 9).map Char.toUpper)

/-- The entry a call to `LoggerService.log` constructs. -/
def mkEntry (env : Env) (category : LogCategory) (action : String)
    (metadata : Option (List (String × Json))) : AuditLog :=
  { id := genId env.rnd, timestamp := env.now, category := category,
    action := action, metadata := metadata }

namespace LoggerService

/-- Model of `LoggerService.getLogs`: read the storage key; an absent key or an empty
string (both falsy) give `[]`, a `JSON.parse` failure is caught and gives
`[]`.  The TypeScript returns the parsed value unvalidated; values reaching
storage through `log` always decode, and a parsed value that is not an entry
array is modelled as `[]`. -/
def getLogs (storage : Option String) : List AuditLog :=
  match storage with
  | none => []
  | some saved =>
    if saved = "" then []
    else
      match Json.parse saved with
      | none => []
      | some j =>
        match decodeLogs j with
        | some logs => logs
        | none => []

/-- The body of `LoggerService.log` inside its `try`: build the entry, read
the current list, prepend and truncate to 500, write, dispatch.  An `error`
result stands for the exception a failing `localStorage.setItem` throws. -/
def logTry (env : Env) (category : LogCategory) (action : String)
    (metadata : Option (List (String × Json))) (storage : Option String) :
    Except String (Option String × List Effect) :=
  let newLog := mkEntry env category action metadata
  let logs := getLogs storage
  let updatedLogs := (newLog :: logs).take 500
  let serialized := Json.stringify (encodeLogs updatedLogs)
  if env.setItemFails then .error "QuotaExceededError"
  else .ok (some serialized, [.setItem serialized, .auditLogUpdated newLog])

/-- Model of `LoggerService.log`: the `try` body with its `catch`, which swallows the
exception and reports it on the console.  The caller always receives a plain
result, never an exception. -/
def log (env : Env) (category : LogCategory) (action : String)
    (metadata : Option (List (String × Json))) (storage : Option String) :
    Option String × List Effect :=
  match logTry env category action metadata storage with
  | .ok r => r
  | .error _ => (storage, [.consoleError "Failed to save audit log:"])

/-- Model of `LoggerService.clearLogs`: log a final purge record, then remove the
storage key. -/
def clearLogs (env : Env) (storage : Option String) : Option String × List Effect :=
  let r := log env .SECURITY "Manual ledger purge initiated" none storage
  (none, r.2 ++ [.removeItem])

end LoggerService

/-- Arguments of one call to `LoggerService.log`, with its environment. -/
structure AppendCall where
  env : Env
  category : LogCategory
  action : String
  metadata : Option (List (String × Json))

/-- The entry a given call constructs. -/
def entryOf (c : AppendCall) : AuditLog := mkEntry c.env c.category c.action c.metadata

/-- Storage after a sequence of `LoggerService.log` calls, in call order. -/
def runAppends (calls : List AppendCall) (storage : Option String) : Option String :=
  calls.foldl (fun st c => (LoggerService.log c.env c.category c.action c.metadata st).1)
    storage

/-- One store operation: an append or an explicit purge. -/
inductive Op where
  | append (call : AppendCall)
  | clear (env : Env)

/-- Storage after one operation. -/
def applyOp (op : Op) (storage : Option String) : Option String :=
  match op with
  | .append c => (LoggerService.log c.env c.category c.action c.metadata storage).1
  | .clear env => (LoggerService.clearLogs env storage).1

/-- Storage after a sequence of operations, in order. -/
def runOps (ops : List Op) (storage : Option String) : Option String :=
  ops.foldl (fun st op => applyOp op st) storage

theorem stringify_ne_empty (v : Json) : Json.stringify v ≠ "" := by
  obtain ⟨c, t, hct, -⟩ := emit_head v
  intro h
  have hdata := congrArg String.data h
  rw [Json.stringify, hct] at hdata
  simp at hdata

/-- Reading back a list written through the entry codec recovers it: the
store round-trip underlying every persisted state the logger produces. -/
theorem getLogs_store (logs : List AuditLog) :
    LoggerService.getLogs (some (Json.stringify (encodeLogs logs))) = logs := by
  rw [LoggerService.getLogs]
  rw [if_neg (stringify_ne_empty (encodeLogs logs))]
  rw [Json.parse_stringify]
  simp [decodeLogs_encodeLogs]

theorem log_success {env : Env} (h : env.setItemFails = false)
    (category : LogCategory) (action : String)
    (metadata : Option (List (String × Json))) (storage : Option String) :
    LoggerService.log env category action metadata storage
      = (some (Json.stringify (encodeLogs
            ((mkEntry env category action metadata
              :: LoggerService.getLogs storage).take 500))),
         [.setItem (Json.stringify (encodeLogs
            ((mkEntry env category action metadata
              :: LoggerService.getLogs storage).take 500))),
          .auditLogUpdated (mkEntry env category action metadata)]) := by
  rw [LoggerService.log, LoggerService.logTry]
  simp [h]

theorem log_failure {env : Env} (h : env.setItemFails = true)
    (category : LogCategory) (action : String)
    (metadata : Option (List (String × Json))) (storage : Option String) :
    LoggerService.log env category action metadata storage
      = (storage, [.consoleError "Failed to save audit log:"]) := by
  rw [LoggerService.log, LoggerService.logTry]
  simp [h]

/-- After a successful append, the stored list is the new entry prepended to
the previous list, truncated to 500. -/
theorem getLogs_after_log {env : Env} (h : env.setItemFails = false)
    (category : LogCategory) (action : String)
    (metadata : Option (List (String × Json))) (storage : Option String) :
    LoggerService.getLogs
        (LoggerService.log env category action metadata storage).1
      = (mkEntry env category action metadata
          :: LoggerService.getLogs storage).take 500 := by
  rw [log_success h, getLogs_store]

/-- The in-memory effect of one successful append on the stored list. -/
def pushCap (acc : List AuditLog) (c : AppendCall) : List AuditLog :=
  (entryOf c :: acc).take 500

theorem getLogs_runAppends :
    ∀ (calls : List AppendCall) (storage : Option String),
    (∀ c ∈ calls, c.env.setItemFails = false) →
    LoggerService.getLogs (runAppends calls storage)
      = calls.foldl pushCap (LoggerService.getLogs storage) := by
  intro calls
  induction calls with
  | nil => intro storage _; rfl
  | cons c cs ih =>
    intro storage hok
    have hc : c.env.setItemFails = false := hok c (List.mem_cons_self c cs)
    have hcs : ∀ x ∈ cs, x.env.setItemFails = false :=
      fun x hx => hok x (List.mem_cons_of_mem c hx)
    rw [show runAppends (c :: cs) storage
          = runAppends cs (LoggerService.log c.env c.category c.action c.metadata
              storage).1 from rfl]
    rw [ih _ hcs, List.foldl_cons]
    rw [show pushCap (LoggerService.getLogs storage) c
          = LoggerService.getLogs (LoggerService.log c.env c.category c.action
              c.metadata storage).1 from (getLogs_after_log hc ..).symm]

theorem take_cap {α : Type} (X Y : List α) :
    (X ++ Y.take 500).take 500 = (X ++ Y).take 500 := by
  rw [List.take_append_eq_append_take, List.take_append_eq_append_take,
      List.take_take]
  congr 2
  omega

theorem foldl_pushCap :
    ∀ (calls : List AppendCall) (acc : List AuditLog), acc.length ≤ 500 →
    calls.foldl pushCap acc = ((calls.map entryOf).reverse ++ acc).take 500 := by
  intro calls
  induction calls with
  | nil =>
    intro acc hacc
    rw [List.foldl_nil, List.map_nil, List.reverse_nil, List.nil_append,
        List.take_of_length_le hacc]
  | cons c cs ih =>
    intro acc hacc
    rw [List.foldl_cons]
    rw [ih (pushCap acc c) (by simp [pushCap])]
    rw [show pushCap acc c = (entryOf c :: acc).take 500 from rfl]
    rw [take_cap]
    simp [List.append_assoc]

/-- The stored list after any sequence of successful appends from the empty
store: the entries in reverse call order, capped at the 500 most recent. -/
theorem getLogs_runAppends_empty (calls : List AppendCall)
    (hok : ∀ c ∈ calls, c.env.setItemFails = false) :
    LoggerService.getLogs (runAppends calls none)
      = ((calls.map entryOf).reverse).take 500 := by
  rw [getLogs_runAppends calls none hok]
  rw [show LoggerService.getLogs none = [] from rfl]
  rw [foldl_pushCap calls [] (by simp), List.append_nil]

theorem getLogs_runOps_le :
    ∀ (ops : List Op) (storage : Option String),
    (LoggerService.getLogs storage).length ≤ 500 →
    (LoggerService.getLogs (runOps ops storage)).length ≤ 500 := by
  intro ops
  induction ops with
  | nil => intro storage h; exact h
  | cons op ops ih =>
    intro storage h
    rw [show runOps (op :: ops) storage = runOps ops (applyOp op storage) from rfl]
    apply ih
    cases op with
    | append c =>
      rw [show applyOp (Op.append c) storage
            = (LoggerService.log c.env c.category c.action c.metadata storage).1
          from rfl]
      cases hfail : c.env.setItemFails with
      | false =>
        rw [getLogs_after_log hfail]
        simp
      | true =>
        rw [log_failure hfail]
        exact h
    | clear env =>
      rw [show applyOp (Op.clear env) storage = none from rfl]
      simp [LoggerService.getLogs]

/-- Per-character lowercasing, as `String.prototype.toLowerCase` acts on the
ASCII strings involved. -/
def jsToLower (s : String) : String := String.mk (s.data.map Char.toLower)

/-- Whether the pattern is an initial run of the input. -/
def listStartsWith : List Char → List Char → Bool
  | [], _ => true
  | _, [] => false
  | a :: as, b :: bs => a == b && listStartsWith as bs

/-- Whether the pattern occurs at some position of the input. -/
def subSearch (pat : List Char) : List Char → Bool
  | [] => listStartsWith pat []
  | c :: cs => listStartsWith pat (c :: cs) || subSearch pat cs

/-- Model of `String.prototype.includes`. -/
def strIncludes (hay needle : String) : Bool := subSearch needle.data hay.data

/-- Sort key of the audit-log view (`'timestamp' | 'category' | 'action'`). -/
inductive SortKey where
  | timestamp | category | action
deriving DecidableEq

/-- Sort direction of the audit-log view (`'asc' | 'desc'`). -/
inductive SortDirection where
  | asc | desc
deriving DecidableEq

/-- The view's sort configuration. -/
structure SortConfig where
  key : SortKey
  direction : SortDirection

/-- Strict lexicographic order on character lists, by code point: the order
JavaScript's `<` puts on the strings involved here. -/
def charListLt : List Char → List Char → Bool
  | _, [] => false
  | [], _ :: _ => true
  | a :: as, b :: bs => a < b || (a == b && charListLt as bs)

/-- Nonstrict string order: `s ≤ t` iff not `t < s`. -/
def jsStrLe (s t : String) : Bool := !charListLt t.data s.data

theorem charListLt_asymm :
    ∀ (as bs : List Char), charListLt as bs = true → charListLt bs as = true → False := by
  intro as
  induction as with
  | nil =>
    intro bs h1 h2
    cases bs with
    | nil => simp [charListLt] at h1
    | cons b bs => simp [charListLt] at h2
  | cons a as ih =>
    intro bs h1 h2
    cases bs with
    | nil => simp [charListLt] at h1
    | cons b bs =>
      simp only [charListLt, Bool.or_eq_true, Bool.and_eq_true, beq_iff_eq,
                 decide_eq_true_eq] at h1 h2
      rcases h1 with h1 | ⟨he1, h1⟩
      · rcases h2 with h2 | ⟨he2, h2⟩
        · exact lt_asymm h1 h2
        · rw [he2] at h1
          exact lt_irrefl _ h1
      · rcases h2 with h2 | ⟨he2, h2⟩
        · rw [he1] at h2
          exact lt_irrefl _ h2
        · exact ih bs h1 h2

theorem charListLt_trichotomy :
    ∀ (as bs : List Char),
    charListLt as bs = true ∨ as = bs ∨ charListLt bs as = true := by
  intro as
  induction as with
  | nil => intro bs; cases bs <;> simp [charListLt]
  | cons a as ih =>
    intro bs
    cases bs with
    | nil => simp [charListLt]
    | cons b bs =>
      rcases lt_trichotomy a b with hab | rfl | hba
      · exact Or.inl (by simp [charListLt, hab])
      · rcases ih bs with h | rfl | h
        · exact Or.inl (by simp [charListLt, h])
        · exact Or.inr (Or.inl rfl)
        · exact Or.inr (Or.inr (by simp [charListLt, h]))
      · exact Or.inr (Or.inr (by simp [charListLt, hba]))

theorem charListLt_trans :
    ∀ (as bs cs : List Char), charListLt as bs = true → charListLt bs cs = true →
    charListLt as cs = true := by
  intro as
  induction as with
  | nil =>
    intro bs cs h1 h2
    cases bs with
    | nil => exact h2
    | cons b bs =>
      cases cs with
      | nil => simp [charListLt] at h2
      | cons c cs => simp [charListLt]
  | cons a as ih =>
    intro bs cs h1 h2
    cases bs with
    | nil => simp [charListLt] at h1
    | cons b bs =>
      cases cs with
      | nil => simp [charListLt] at h2
      | cons c cs =>
        simp only [charListLt, Bool.or_eq_true, Bool.and_eq_true, beq_iff_eq,
                   decide_eq_true_eq] at h1 h2 ⊢
        rcases h1 with h1 | ⟨rfl, h1⟩
        · rcases h2 with h2 | ⟨rfl, h2⟩
          · exact Or.inl (lt_trans h1 h2)
          · exact Or.inl h1
        · rcases h2 with h2 | ⟨rfl, h2⟩
          · exact Or.inl h2
          · exact Or.inr ⟨rfl, ih bs cs h1 h2⟩

theorem jsStrLe_total (s t : String) : jsStrLe s t = true ∨ jsStrLe t s = true := by
  rw [jsStrLe, jsStrLe]
  by_cases h : charListLt t.data s.data = true
  · right
    by_cases h2 : charListLt s.data t.data = true
    · exact (charListLt_asymm _ _ h2 h).elim
    · rw [Bool.not_eq_true] at h2
      simp [h2]
  · left
    rw [Bool.not_eq_true] at h
    simp [h]

theorem jsStrLe_trans {s t u : String} (h1 : jsStrLe s t = true)
    (h2 : jsStrLe t u = true) : jsStrLe s u = true := by
  rw [jsStrLe, Bool.not_eq_true'] at h1 h2 ⊢
  by_contra hcon
  rw [Bool.not_eq_false] at hcon
  rcases charListLt_trichotomy t.data u.data with h3 | h3 | h3
  · exact absurd (charListLt_trans _ _ _ h3 hcon) (by simp [h1])
  · rw [h3] at h1
    exact absurd hcon (by simp [h1])
  · exact absurd h3 (by simp [h2])

/-- The ordering the view's comparator sorts by: comparator result `≤ 0`.
The comparator lowercases string values before comparing and flips the
answer for descending order; `timestamp` compares numbers. -/
def logLe (sc : SortConfig) (a b : AuditLog) : Bool :=
  match sc.key with
  | .timestamp =>
    match sc.direction with
    | .asc => decide (a.timestamp ≤ b.timestamp)
    | .desc => decide (b.timestamp ≤ a.timestamp)
  | .category =>
    match sc.direction with
    | .asc => jsStrLe (jsToLower a.category.str) (jsToLower b.category.str)
    | .desc => jsStrLe (jsToLower b.category.str) (jsToLower a.category.str)
  | .action =>
    match sc.direction with
    | .asc => jsStrLe (jsToLower a.action) (jsToLower b.action)
    | .desc => jsStrLe (jsToLower b.action) (jsToLower a.action)

/-- The filter predicate inside `sortedAndFilteredLogs`: category match
(`filter === 'ALL'` is `none`), and, for a nonempty query, a lowercased
substring match on the action, the category string, or the serialized
metadata (an absent `metadata` short-circuits to `false`). -/
def viewMatches (filter : Option LogCategory) (searchQuery : String)
    (lg : AuditLog) : Bool :=
  let matchesCategory :=
    match filter with
    | none => true
    | some fc => decide (lg.category = fc)
  let searchStr := jsToLower searchQuery
  if searchQuery = "" then matchesCategory
  else
    let matchesText :=
      strIncludes (jsToLower lg.action) searchStr ||
      strIncludes (jsToLower lg.category.str) searchStr ||
      (match lg.metadata with
       | some m => strIncludes (jsToLower (Json.stringify (.obj m))) searchStr
       | none => false)
    matchesCategory && matchesText

/-- Model of `sortedAndFilteredLogs` of the audit-log view: filter the snapshot, then
sort it with the comparator.  `Array.prototype.sort` is a stable sort ordered
by the comparator, which a merge sort by `logLe` realizes exactly. -/
def sortedAndFilteredLogs (logs : List AuditLog) (filter : Option LogCategory)
    (searchQuery : String) (sortConfig : SortConfig) : List AuditLog :=
  (logs.filter (viewMatches filter searchQuery)).mergeSort (logLe sortConfig)

theorem logLe_trans (sc : SortConfig) (a b c : AuditLog)
    (h1 : logLe sc a b = true) (h2 : logLe sc b c = true) : logLe sc a c = true := by
  rcases sc with ⟨key, dir⟩
  cases key <;> cases dir <;>
    simp only [logLe, decide_eq_true_eq] at h1 h2 ⊢ <;>
    first
    | omega
    | exact jsStrLe_trans h1 h2
    | exact jsStrLe_trans h2 h1

theorem logLe_total (sc : SortConfig) (a b : AuditLog) :
    (logLe sc a b || logLe sc b a) = true := by
  rcases sc with ⟨key, dir⟩
  cases key <;> cases dir <;>
    simp only [logLe, Bool.or_eq_true, decide_eq_true_eq] <;>
    first
    | omega
    | exact jsStrLe_total _ _

/-- The filter predicate as claim C8 words it: the category matches the
selected filter and, when the query is nonempty, the action text or the
serialized metadata contains the query case-insensitively.  (The category
name is not part of this search.) -/
def claimMatches (filter : Option LogCategory) (q : String) (lg : AuditLog) : Bool :=
  (match filter with
   | none => true
   | some fc => decide (lg.category = fc)) &&
  (decide (q = "") ||
   strIncludes (jsToLower lg.action) (jsToLower q) ||
   (match lg.metadata with
    | some m => strIncludes (jsToLower (Json.stringify (.obj m))) (jsToLower q)
    | none => false))

/-- The amended filter predicate: as `claimMatches`, with the category name
included in the case-insensitive substring search, as the code performs it. -/
def claimMatchesAmended (filter : Option LogCategory) (q : String)
    (lg : AuditLog) : Bool :=
  (match filter with
   | none => true
   | some fc => decide (lg.category = fc)) &&
  (decide (q = "") ||
   strIncludes (jsToLower lg.action) (jsToLower q) ||
   strIncludes (jsToLower lg.category.str) (jsToLower q) ||
   (match lg.metadata with
    | some m => strIncludes (jsToLower (Json.stringify (.obj m))) (jsToLower q)
    | none => false))

theorem viewMatches_eq_amended (filter : Option LogCategory) (q : String)
    (lg : AuditLog) : viewMatches filter q lg = claimMatchesAmended filter q lg := by
  rw [viewMatches.eq_def, claimMatchesAmended.eq_def]
  by_cases hq : q = ""
  · simp [hq]
  · simp only [hq, if_false, decide_eq_true_eq, Bool.false_or]
    cases hm : lg.metadata <;>
      cases filter <;>
        simp [hq, hm, Bool.and_comm, Bool.or_assoc, Bool.or_comm, Bool.or_left_comm]

/-- The digit alphabet of `Number.prototype.toString(36)` output. -/
def base36Digits : List Char := "0123456789abcdefghijklmnopqrstuvwxyz".data

theorem toUpper_inj_on_base36 :
    ∀ c1 ∈ base36Digits, ∀ c2 ∈ base36Digits,
    Char.toUpper c1 = Char.toUpper c2 → c1 = c2 := by decide

theorem map_toUpper_inj :
    ∀ (l1 l2 : List Char),
    (∀ c ∈ l1, c ∈ base36Digits) → (∀ c ∈ l2, c ∈ base36Digits) →
    l1.map Char.toUpper = l2.map Char.toUpper → l1 = l2 := by
  intro l1
  induction l1 with
  | nil =>
    intro l2 _ _ h
    cases l2 with
    | nil => rfl
    | cons b bs => simp at h
  | cons a as ih =>
    intro l2 h1 h2 h
    cases l2 with
    | nil => simp at h
    | cons b bs =>
      simp only [List.map_cons, List.cons.injEq] at h
      have hab : a = b :=
        toUpper_inj_on_base36 a (h1 a (List.mem_cons_self a as))
          b (h2 b (List.mem_cons_self b bs)) h.1
      rw [hab, ih bs (fun c hc => h1 c (List.mem_cons_of_mem a hc))
            (fun c hc => h2 c (List.mem_cons_of_mem b hc)) h.2]

/-- A sample append call with a successful persistence write. -/
def wcall (r : String) (t : Int) (cat : LogCategory) (act : String) : AppendCall :=
  ⟨⟨r, t, false⟩, cat, act, none⟩

/-- C1: for every sequence of at most 500 appends starting from the empty
store (all persistence writes succeeding), `getLogs` returns exactly the
constructed entries in reverse call order; and after any single append, from
any prior storage state, the new entry is at index 0 of `getLogs`. -/
theorem C1_appends_reverse_order :
    (∀ (calls : List AppendCall),
      (∀ c ∈ calls, c.env.setItemFails = false) →
      calls.length ≤ 500 →
      LoggerService.getLogs (runAppends calls none) = (calls.map entryOf).reverse)
    ∧ (∀ (env : Env) (category : LogCategory) (action : String)
        (metadata : Option (List (String × Json))) (storage : Option String),
        env.setItemFails = false →
        (LoggerService.getLogs
            (LoggerService.log env category action metadata storage).1).head?
          = some (mkEntry env category action metadata)) := by
  constructor
  · intro calls hok hlen
    rw [getLogs_runAppends_empty calls hok]
    apply List.take_of_length_le
    simp [hlen]
  · intro env category action metadata storage h
    rw [getLogs_after_log h]
    rw [show (500 : Nat) = 499 + 1 from rfl, List.take_succ_cons]
    rfl

/-- Witness for C1 at a concrete three-call sequence. -/
theorem C1_appends_reverse_order_witness :
    (∀ c ∈ [wcall "0.a1b2c3d4e" 100 .SYSTEM "boot",
            wcall "0.f5g6h7i8j" 200 .FINANCIAL "payout",
            wcall "0.z9y8x7w6v" 300 .SECURITY "login"],
        c.env.setItemFails = false)
    ∧ ([wcall "0.a1b2c3d4e" 100 .SYSTEM "boot",
        wcall "0.f5g6h7i8j" 200 .FINANCIAL "payout",
        wcall "0.z9y8x7w6v" 300 .SECURITY "login"] : List AppendCall).length ≤ 500
    ∧ LoggerService.getLogs (runAppends
          [wcall "0.a1b2c3d4e" 100 .SYSTEM "boot",
           wcall "0.f5g6h7i8j" 200 .FINANCIAL "payout",
           wcall "0.z9y8x7w6v" 300 .SECURITY "login"] none)
        = (([wcall "0.a1b2c3d4e" 100 .SYSTEM "boot",
             wcall "0.f5g6h7i8j" 200 .FINANCIAL "payout",
             wcall "0.z9y8x7w6v" 300 .SECURITY "login"]).map entryOf).reverse :=
  ⟨by decide, by decide,
   C1_appends_reverse_order.1 _ (by decide) (by decide)⟩

/-- C2: with more than 500 appends from the empty store (all writes
succeeding), `getLogs` returns exactly the 500 most recent entries in reverse
call order, the oldest dropped; and after any operation sequence (appends,
failing appends, purges) from the empty store, the stored list never exceeds
500 entries. -/
theorem C2_store_capped_at_500 :
    (∀ (calls : List AppendCall),
      (∀ c ∈ calls, c.env.setItemFails = false) →
      500 < calls.length →
      LoggerService.getLogs (runAppends calls none)
        = ((calls.map entryOf).reverse).take 500)
    ∧ (∀ (ops : List Op),
        (LoggerService.getLogs (runOps ops none)).length ≤ 500) := by
  constructor
  · intro calls hok _
    exact getLogs_runAppends_empty calls hok
  · intro ops
    exact getLogs_runOps_le ops none (by simp [LoggerService.getLogs])

/-- Witness for C2 at a concrete 501-call sequence. -/
theorem C2_store_capped_at_500_witness :
    (∀ c ∈ List.replicate 501 (wcall "0.qqqqqqqqq" 7 .OPERATION "tick"),
        c.env.setItemFails = false)
    ∧ 500 < (List.replicate 501 (wcall "0.qqqqqqqqq" 7 .OPERATION "tick")).length
    ∧ LoggerService.getLogs (runAppends
          (List.replicate 501 (wcall "0.qqqqqqqqq" 7 .OPERATION "tick")) none)
        = (((List.replicate 501 (wcall "0.qqqqqqqqq" 7 .OPERATION "tick")).map
            entryOf).reverse).take 500 :=
  ⟨fun c hc => by rw [List.eq_of_mem_replicate hc]; rfl,
   by rw [List.length_replicate]; omega,
   C2_store_capped_at_500.1 _
     (fun c hc => by rw [List.eq_of_mem_replicate hc]; rfl)
     (by rw [List.length_replicate]; omega)⟩

/-- C3: `clearLogs` first performs the full purge-logging append (its effects
come first in the trace), then removes the storage key; from every prior
store state and every environment, the storage afterwards is empty and
`getLogs` returns the empty sequence. -/
theorem C3_clear_empties_store :
    ∀ (env : Env) (storage : Option String),
      (LoggerService.clearLogs env storage).1 = none
      ∧ LoggerService.getLogs (LoggerService.clearLogs env storage).1 = []
      ∧ (LoggerService.clearLogs env storage).2
          = (LoggerService.log env .SECURITY "Manual ledger purge initiated" none
              storage).2 ++ [Effect.removeItem] := by
  intro env storage
  exact ⟨rfl, rfl, rfl⟩

/-- C4: on every append whose persistence write succeeds, the effect trace is
exactly the `localStorage.setItem` of the updated serialized sequence followed
by the broadcast notification carrying the newly created entry: the write to
the storage medium precedes the notification, and the notification payload is
the new entry. -/
theorem C4_persist_precedes_notification :
    ∀ (env : Env) (category : LogCategory) (action : String)
      (metadata : Option (List (String × Json))) (storage : Option String),
      env.setItemFails = false →
      (LoggerService.log env category action metadata storage).2
        = [Effect.setItem (Json.stringify (encodeLogs
              ((mkEntry env category action metadata
                :: LoggerService.getLogs storage).take 500))),
           Effect.auditLogUpdated (mkEntry env category action metadata)] := by
  intro env category action metadata storage h
  rw [log_success h]

/-- Witness for C4 at a concrete call. -/
theorem C4_persist_precedes_notification_witness :
    (Env.mk "0.abcdefghi" 42 false).setItemFails = false
    ∧ (LoggerService.log (Env.mk "0.abcdefghi" 42 false) .SYSTEM "ping" none none).2
        = [Effect.setItem (Json.stringify (encodeLogs
              ((mkEntry (Env.mk "0.abcdefghi" 42 false) .SYSTEM "ping" none
                :: LoggerService.getLogs none).take 500))),
           Effect.auditLogUpdated
             (mkEntry (Env.mk "0.abcdefghi" 42 false) .SYSTEM "ping" none)] :=
  ⟨rfl, C4_persist_precedes_notification (Env.mk "0.abcdefghi" 42 false)
     .SYSTEM "ping" none none rfl⟩

/-- C5: `LoggerService.log` never fails observably to its caller.  For every
category, action, metadata and storage state, and every persistence-layer
behavior — including a write that throws (`logTry` returns `error`) — `log`
returns a plain result: on success it is the body's result, on failure the
exception is swallowed, storage is left unchanged and only a console
diagnostic is emitted, so the caller cannot distinguish success from silent
failure through any error channel. -/
theorem C5_append_never_throws :
    ∀ (env : Env) (category : LogCategory) (action : String)
      (metadata : Option (List (String × Json))) (storage : Option String),
      (∃ r, LoggerService.logTry env category action metadata storage
              = Except.ok r
          ∧ LoggerService.log env category action metadata storage = r)
      ∨ (∃ e, LoggerService.logTry env category action metadata storage
              = Except.error e
          ∧ LoggerService.log env category action metadata storage
              = (storage, [Effect.consoleError "Failed to save audit log:"])) := by
  intro env category action metadata storage
  cases h : LoggerService.logTry env category action metadata storage with
  | ok r =>
    exact Or.inl ⟨r, rfl, by rw [LoggerService.log, h]⟩
  | error e =>
    exact Or.inr ⟨e, rfl, by rw [LoggerService.log, h]⟩

/-- C6: an absent storage value and every string `JSON.parse` rejects make
`getLogs` return the empty sequence; the parse exception is caught inside
`getLogs`, which returns normally. -/
theorem C6_malformed_storage_empty :
    (∀ s : String, Json.parse s = none → LoggerService.getLogs (some s) = [])
    ∧ LoggerService.getLogs none = [] := by
  constructor
  · intro s h
    rw [LoggerService.getLogs]
    by_cases hs : s = ""
    · simp [hs]
    · simp [hs, h]
  · rfl

/-- Witness for C6 at a concrete malformed string. -/
theorem C6_malformed_storage_empty_witness :
    Json.parse "not json" = none
    ∧ LoggerService.getLogs (some "not json") = [] := by
  have hparse : Json.parse "not json" = none := by
    rw [Json.parse]
    simp +decide [readVal, wsDrop]
  exact ⟨hparse, C6_malformed_storage_empty.1 "not json" hparse⟩

/-- C7: round-trip of the persistence format.  Serializing any in-memory
entry sequence exactly as `log`'s write does (`JSON.stringify` of the encoded
entry array) and reloading it through `getLogs`, as a fresh session would,
yields the identical ordered sequence. -/
theorem C7_persistence_roundtrip :
    ∀ (logs : List AuditLog),
      LoggerService.getLogs (some (Json.stringify (encodeLogs logs))) = logs :=
  getLogs_store

/-- C8 counterexample: with filter `'ALL'` and query `"sys"`, an entry whose
category is SYSTEM but whose action contains no `"sys"` and which has no
metadata is returned by the view — the code also searches the category name —
although the claim's filter predicate excludes it. -/
theorem C8_category_search_counterexample :
    sortedAndFilteredLogs [⟨"L1", 0, .SYSTEM, "x", none⟩] none "sys"
        ⟨.timestamp, .asc⟩
      = [⟨"L1", 0, .SYSTEM, "x", none⟩]
    ∧ claimMatches none "sys" ⟨"L1", 0, .SYSTEM, "x", none⟩ = false := by
  constructor
  · rw [sortedAndFilteredLogs]
    rw [show ([⟨"L1", 0, .SYSTEM, "x", none⟩] : List AuditLog).filter
          (viewMatches none "sys") = [⟨"L1", 0, .SYSTEM, "x", none⟩] from rfl]
    exact List.mergeSort_singleton _
  · rfl

/-- C8 amended: the view's computed sequence contains exactly the entries
whose category matches the selected filter and, for a nonempty query, whose
action text, category name or serialized metadata contains the query
case-insensitively; and it is sorted by the comparator's order for the
selected key and direction (numeric for timestamps, case-insensitive
lexicographic for strings). -/
theorem C8_filter_sort_amended :
    ∀ (logs : List AuditLog) (filter : Option LogCategory) (q : String)
      (sc : SortConfig),
      (sortedAndFilteredLogs logs filter q sc).Perm
          (logs.filter (claimMatchesAmended filter q))
      ∧ (sortedAndFilteredLogs logs filter q sc).Pairwise
          (fun a b => logLe sc a b = true) := by
  intro logs filter q sc
  constructor
  · rw [sortedAndFilteredLogs]
    have h1 : logs.filter (viewMatches filter q)
        = logs.filter (claimMatchesAmended filter q) :=
      List.filter_congr (fun lg _ => viewMatches_eq_amended filter q lg)
    rw [← h1]
    exact List.mergeSort_perm _ _
  · rw [sortedAndFilteredLogs]
    exact List.sorted_mergeSort (logLe_trans sc) (logLe_total sc) _

/-- C9 counterexample: two distinct append calls whose random draws coincide
construct distinct entries with the same generated id. -/
theorem C9_id_collision_counterexample :
    mkEntry ⟨"0.k7q2w9x1z", 1000, false⟩ .SYSTEM "first action" none
      ≠ mkEntry ⟨"0.k7q2w9x1z", 2000, false⟩ .SECURITY "second action" none
    ∧ (mkEntry ⟨"0.k7q2w9x1z", 1000, false⟩ .SYSTEM "first action" none).id
      = (mkEntry ⟨"0.k7q2w9x1z", 2000, false⟩ .SECURITY "second action" none).id := by
  constructor
  · intro h
    have ht := congrArg AuditLog.timestamp h
    simp [mkEntry] at ht
  · rfl

/-- C9 amended: ids are generated at write time from the call's random draw,
and two appends receive distinct ids whenever the first nine base-36 fraction
digits of their draws — the exact substring the id is built from — differ;
when the draws coincide there, the ids collide. -/
theorem C9_id_distinct_amended :
    ∀ (r1 r2 : String),
      (∀ c ∈ (r1.data.drop 2).take 9, c ∈ base36Digits) →
      (∀ c ∈ (r2.data.drop 2).take 9, c ∈ base36Digits) →
      (r1.data.drop 2).take 9 ≠ (r2.data.drop 2).take 9 →
      genId r1 ≠ genId r2 := by
  intro r1 r2 h1 h2 hne heq
  rw [genId, genId] at heq
  have hlist : "LOG-".data ++ ((r1.data.drop 2).take 9).map Char.toUpper
      = "LOG-".data ++ ((r2.data.drop 2).take 9).map Char.toUpper :=
    congrArg String.data heq
  exact hne (map_toUpper_inj _ _ h1 h2 (List.append_cancel_left hlist))

/-- Witness for the amended C9 at two concrete draws. -/
theorem C9_id_distinct_amended_witness :
    (∀ c ∈ (("0.abcdefghijk" : String).data.drop 2).take 9, c ∈ base36Digits)
    ∧ (∀ c ∈ (("0.zzzzzzzzzzz" : String).data.drop 2).take 9, c ∈ base36Digits)
    ∧ (("0.abcdefghijk" : String).data.drop 2).take 9
        ≠ (("0.zzzzzzzzzzz" : String).data.drop 2).take 9
    ∧ genId "0.abcdefghijk" ≠ genId "0.zzzzzzzzzzz" :=
  ⟨by decide, by decide, by decide,
   C9_id_distinct_amended _ _ (by decide) (by decide) (by decide)⟩

/-- C10: during `clearLogs` with a successful persistence write, the
broadcast notification carrying the purge entry is emitted before the storage
key is removed (the trace is the write, the notification, then the removal),
and afterwards `getLogs` returns a sequence no longer containing the purge
entry — the empty sequence. -/
theorem C10_purge_notified_before_removal :
    ∀ (env : Env) (storage : Option String),
      env.setItemFails = false →
      (LoggerService.clearLogs env storage).2
        = [Effect.setItem (Json.stringify (encodeLogs
              ((mkEntry env .SECURITY "Manual ledger purge initiated" none
                :: LoggerService.getLogs storage).take 500))),
           Effect.auditLogUpdated
             (mkEntry env .SECURITY "Manual ledger purge initiated" none),
           Effect.removeItem]
      ∧ LoggerService.getLogs (LoggerService.clearLogs env storage).1 = [] := by
  intro env storage h
  constructor
  · rw [show (LoggerService.clearLogs env storage).2
        = (LoggerService.log env .SECURITY "Manual ledger purge initiated" none
            storage).2 ++ [Effect.removeItem] from rfl]
    rw [log_success h]
    rfl
  · rfl

/-- Witness for C10 at a concrete environment and store. -/
theorem C10_purge_notified_before_removal_witness :
    (Env.mk "0.purgedraw" 99 false).setItemFails = false
    ∧ ((LoggerService.clearLogs (Env.mk "0.purgedraw" 99 false) none).2
        = [Effect.setItem (Json.stringify (encodeLogs
              ((mkEntry (Env.mk "0.purgedraw" 99 false) .SECURITY
                  "Manual ledger purge initiated" none
                :: LoggerService.getLogs none).take 500))),
           Effect.auditLogUpdated
             (mkEntry (Env.mk "0.purgedraw" 99 false) .SECURITY
                "Manual ledger purge initiated" none),
           Effect.removeItem]
        ∧ LoggerService.getLogs
            (LoggerService.clearLogs (Env.mk "0.purgedraw" 99 false) none).1 = []) :=
  ⟨rfl, C10_purge_notified_before_removal (Env.mk "0.purgedraw" 99 false) none rfl⟩
